import Mathlib

/-!
Shallow embedding of `src/lexer.rs` (a byte-oriented lexical scanner for a
small C-like language) and verification of its specification claims.

Bytes are modelled as natural numbers; the Rust `Vec<u8>` buffer is a
`List Nat`.  The `unreachable!()` catch-all of `next_token` is modelled by
returning `none`.  The Rust `String` payloads of identifier and integer
tokens are modelled as the byte slices the source extracts.
-/

namespace Monkey

/-- Token — the closed set of lexical categories (enum `Token` in the source).
`IDENT` and `INT` carry the matched byte run. -/
inductive Token where
  | ILLEGAL
  | EOF
  | IDENT (w : List Nat)
  | INT (w : List Nat)
  | ASSIGN
  | PLUS
  | MINUS
  | BANG
  | ASTERISK
  | SLASH
  | LT
  | GT
  | EQUAL
  | NOTEQUAL
  | COMMA
  | SEMICOLON
  | LPAREN
  | RPAREN
  | LBRACE
  | RBRACE
  | FUNCTION
  | LET
  | TRUE
  | FALSE
  | IF
  | ELSE
  | RETURN
deriving DecidableEq, Repr

/-- Scanner state (struct `Lexer` in the source): immutable byte buffer,
current index `pos`, next index `read_pos`, current byte `ch`. -/
structure Lexer where
  input : List Nat
  pos : Nat
  read_pos : Nat
  ch : Nat
deriving DecidableEq, Repr

/-- `Lexer::read_char`: load the byte at `read_pos` (or the sentinel 0 past the
end), move `pos` to `read_pos` and advance `read_pos`. -/
def readChar (s : Lexer) : Lexer :=
  { input := s.input
    pos := s.read_pos
    read_pos := s.read_pos + 1
    ch := if s.input.length ≤ s.read_pos then 0 else s.input.getD s.read_pos 0 }

/-- `Lexer::new`: zero-initialised state followed by one priming `read_char`. -/
def Lexer.new (input : List Nat) : Lexer :=
  readChar { input := input, pos := 0, read_pos := 0, ch := 0 }

/-- `Lexer::peek_char`: the byte at `read_pos` without mutating the state
(0 at or past the end of the buffer). -/
def peekChar (s : Lexer) : Nat :=
  if s.input.length ≤ s.read_pos then 0 else s.input.getD s.read_pos 0

/-- `u8::is_ascii_whitespace` (the loop guard of `Lexer::skip_whitespace`):
space, horizontal tab, line feed, form feed or carriage return. -/
def isAsciiWhitespace (b : Nat) : Bool :=
  b == 32 || b == 9 || b == 10 || b == 12 || b == 13

/-- `u8::is_ascii_alphabetic`: an ASCII letter. -/
def isAsciiAlphabetic (b : Nat) : Bool :=
  (65 ≤ b && b ≤ 90) || (97 ≤ b && b ≤ 122)

/-- `u8::is_ascii_digit`: an ASCII decimal digit. -/
def isAsciiDigit (b : Nat) : Bool :=
  48 ≤ b && b ≤ 57

/-- The identifier-character class of the source: the guard of the
`read_ident` loop and the `a-z | A-Z | _` match arm of `next_token`. -/
def isIdentChar (b : Nat) : Bool :=
  isAsciiAlphabetic b || b == 95

/-- Generic `while p(self.ch) { self.read_char() }` loop of the source
(`skip_whitespace`, `read_ident`, `read_int` all have this shape).  The
argument `hp` records that the class `p` excludes the end-of-buffer
sentinel, which bounds the loop by the buffer length. -/
def scanWhile (p : Nat → Bool) (hp : p 0 = false) (s : Lexer) : Lexer :=
  if h : p s.ch = true then scanWhile p hp (readChar s) else s
termination_by (if s.ch = 0 then 0 else s.input.length + 2 - s.read_pos + 1)
decreasing_by
  have hch : s.ch ≠ 0 := by
    intro h0
    rw [h0, hp] at h
    exact Bool.noConfusion h
  rw [if_neg hch]
  by_cases h2 : (readChar s).ch = 0
  · rw [if_pos h2]
    omega
  · rw [if_neg h2]
    have hlt : s.read_pos < s.input.length := by
      by_contra hge
      exact h2 (by simp only [readChar, if_pos (by omega : s.input.length ≤ s.read_pos)])
    simp only [readChar]
    omega

/-- `Lexer::skip_whitespace`. -/
def skipWhitespace (s : Lexer) : Lexer :=
  scanWhile isAsciiWhitespace rfl s

/-- The Rust slice `input[a..b]`. -/
def slice (l : List Nat) (a b : Nat) : List Nat :=
  (l.drop a).take (b - a)

/-- `Lexer::read_ident`: consume the letter/underscore run starting at `pos`
and return the consumed slice together with the final state. -/
def readIdent (s : Lexer) : List Nat × Lexer :=
  let s2 := scanWhile isIdentChar rfl s
  (slice s.input s.pos s2.pos, s2)

/-- `Lexer::read_int`: consume the digit run starting at `pos` and return the
consumed slice together with the final state. -/
def readInt (s : Lexer) : List Nat × Lexer :=
  let s2 := scanWhile isAsciiDigit rfl s
  (slice s.input s.pos s2.pos, s2)

/-- The keyword table of `next_token` (the `match ident.as_str()` on the
scanned run): `fn`, `let`, `if`, `return`, `true`, `false`, `else`, in source
order; anything else is an identifier carrying the full run. -/
def lookupIdent (w : List Nat) : Token :=
  if w = [102, 110] then Token.FUNCTION
  else if w = [108, 101, 116] then Token.LET
  else if w = [105, 102] then Token.IF
  else if w = [114, 101, 116, 117, 114, 110] then Token.RETURN
  else if w = [116, 114, 117, 101] then Token.TRUE
  else if w = [102, 97, 108, 115, 101] then Token.FALSE
  else if w = [101, 108, 115, 101] then Token.ELSE
  else Token.IDENT w

/-- The `match self.ch` classification of `next_token`, applied to the state
after whitespace skipping.  Single-character branches perform the trailing
`read_char`; the `=`/`!` branches consult `peek_char` and consume a second
character for `==`/`!=`; the digit and identifier branches return early with
the run-consuming helpers; the byte 0 branch yields `EOF` (and, like every
non-early-return branch, still performs the trailing `read_char`); the
catch-all `unreachable!()` is `none`. -/
def tokenOf (s : Lexer) : Option (Token × Lexer) :=
  if s.ch = 61 then
    if peekChar s = 61 then some (Token.EQUAL, readChar (readChar s))
    else some (Token.ASSIGN, readChar s)
  else if s.ch = 33 then
    if peekChar s = 61 then some (Token.NOTEQUAL, readChar (readChar s))
    else some (Token.BANG, readChar s)
  else if s.ch = 123 then some (Token.LBRACE, readChar s)
  else if s.ch = 125 then some (Token.RBRACE, readChar s)
  else if s.ch = 40 then some (Token.LPAREN, readChar s)
  else if s.ch = 41 then some (Token.RPAREN, readChar s)
  else if s.ch = 44 then some (Token.COMMA, readChar s)
  else if s.ch = 59 then some (Token.SEMICOLON, readChar s)
  else if s.ch = 43 then some (Token.PLUS, readChar s)
  else if s.ch = 45 then some (Token.MINUS, readChar s)
  else if s.ch = 42 then some (Token.ASTERISK, readChar s)
  else if s.ch = 47 then some (Token.SLASH, readChar s)
  else if s.ch = 60 then some (Token.LT, readChar s)
  else if s.ch = 62 then some (Token.GT, readChar s)
  else if isAsciiDigit s.ch then
    some (Token.INT (readInt s).1, (readInt s).2)
  else if isIdentChar s.ch then
    some (lookupIdent (readIdent s).1, (readIdent s).2)
  else if s.ch = 0 then some (Token.EOF, readChar s)
  else none

/-- `Lexer::next_token`: skip whitespace, then classify the current byte. -/
def nextToken (s : Lexer) : Option (Token × Lexer) :=
  tokenOf (skipWhitespace s)

/-- Cursor-consistency invariant of the scanner state: `read_pos` is one past
`pos`, and `ch` caches the byte at `pos` (the sentinel 0 past the end). -/
def wf (s : Lexer) : Prop :=
  s.read_pos = s.pos + 1 ∧
  (s.pos < s.input.length → s.ch = s.input.getD s.pos 0) ∧
  (s.input.length ≤ s.pos → s.ch = 0)

instance (s : Lexer) : Decidable (wf s) := by
  unfold wf
  infer_instance

/-- The supported input alphabet of the specification: the four listed
whitespace bytes, letters, digits, underscore and the listed
punctuation/operator bytes. -/
def supportedByte (b : Nat) : Bool :=
  b == 32 || b == 9 || b == 10 || b == 13 ||
  isAsciiAlphabetic b || isAsciiDigit b || b == 95 ||
  b == 61 || b == 33 || b == 123 || b == 125 || b == 40 || b == 41 ||
  b == 44 || b == 59 || b == 43 || b == 45 || b == 42 || b == 47 ||
  b == 60 || b == 62

/-- An input composed solely of supported bytes. -/
def supportedInput (l : List Nat) : Bool :=
  l.all supportedByte

/-- Drive `next_token` repeatedly (with explicit fuel), collecting the tokens
produced up to and including the first end-of-input token, together with the
state at that point. -/
def tokenizeSt : Nat → Lexer → Option (List Token × Lexer)
  | 0, _ => none
  | fuel + 1, s =>
    match nextToken s with
    | none => none
    | some (t, s') =>
      if t = Token.EOF then some ([t], s')
      else
        match tokenizeSt fuel s' with
        | none => none
        | some (ts, sF) => some (t :: ts, sF)

/-- The result of the `(n+1)`-st call of `next_token` starting from `s`. -/
def callN : Nat → Lexer → Option (Token × Lexer)
  | 0, s => nextToken s
  | n + 1, s =>
    match nextToken s with
    | none => none
    | some (_, s') => callN n s'

/-- A state that has consumed its whole buffer: well-formed, sentinel current
byte, cursor at or past the end. -/
def atEnd (s : Lexer) : Prop :=
  wf s ∧ s.ch = 0 ∧ s.input.length ≤ s.pos

/-- Outcome of one classification step on a well-formed supported-alphabet
state: a token is always produced; `EOF` comes with an at-end successor state,
every other token with a strict cursor advance inside the buffer. -/
def stepGoal (s : Lexer) : Prop :=
  ∃ t s', tokenOf s = some (t, s') ∧ wf s' ∧ s'.input = s.input ∧
    ((t = Token.EOF ∧ atEnd s') ∨
     (t ≠ Token.EOF ∧ s.pos < s'.pos ∧ s'.pos ≤ s.input.length))

theorem readChar_input (s : Lexer) : (readChar s).input = s.input := rfl

theorem readChar_wf (s : Lexer) : wf (readChar s) := by
  refine ⟨rfl, ?_, ?_⟩ <;> simp only [readChar] <;> intro h
  · rw [if_neg (by omega)]
  · rw [if_pos (by omega)]

theorem readChar_pos (s : Lexer) (h : wf s) : (readChar s).pos = s.pos + 1 := by
  simp only [readChar]
  exact h.1

theorem wf_pos_lt (s : Lexer) (h : wf s) (hch : s.ch ≠ 0) : s.pos < s.input.length := by
  by_contra hge
  exact hch (h.2.2 (by omega))

theorem scanWhile_eq (p : Nat → Bool) (hp : p 0 = false) (s : Lexer) :
    scanWhile p hp s = if p s.ch = true then scanWhile p hp (readChar s) else s := by
  rw [scanWhile]
  split <;> rfl

/-- Induction principle tailored to the scanning loop: to prove a property of
every state it suffices to prove it when the loop guard fails and to carry it
backwards through one `read_char` step when the guard holds. -/
theorem scanWhile_ind (p : Nat → Bool) (hp : p 0 = false) (motive : Lexer → Prop)
    (h1 : ∀ s, p s.ch = false → motive s)
    (h2 : ∀ s, p s.ch = true → motive (readChar s) → motive s) :
    ∀ s, motive s := by
  have key : ∀ n s, (if p s.ch = true then s.input.length + 2 - s.read_pos + 1 else 0) ≤ n →
      motive s := by
    intro n
    induction n with
    | zero =>
      intro s hs
      by_cases hc : p s.ch = true
      · rw [if_pos hc] at hs
        omega
      · exact h1 s (by simpa using hc)
    | succ n ih =>
      intro s hs
      by_cases hc : p s.ch = true
      · refine h2 s hc (ih _ ?_)
        rw [if_pos hc] at hs
        by_cases hc2 : p (readChar s).ch = true
        · have hch2 : (readChar s).ch ≠ 0 := by
            intro h0
            rw [h0, hp] at hc2
            exact Bool.noConfusion hc2
          have hlt : s.read_pos < s.input.length := by
            by_contra hge
            exact hch2 (by simp only [readChar, if_pos (by omega : s.input.length ≤ s.read_pos)])
          rw [if_pos hc2]
          simp only [readChar]
          omega
        · rw [if_neg hc2]
          omega
      · exact h1 s (by simpa using hc)
  exact fun s => key _ s le_rfl

/-- Collected behaviour of the scanning loop on a well-formed state: the
buffer is unchanged, the result is well-formed, the loop guard fails at the
result, the cursor moves monotonically (strictly if the guard held at entry)
and stays within the buffer, and every byte passed over satisfies the guard. -/
theorem scanWhile_spec (p : Nat → Bool) (hp : p 0 = false) (s : Lexer) :
    wf s →
    (scanWhile p hp s).input = s.input ∧ wf (scanWhile p hp s) ∧
    p (scanWhile p hp s).ch = false ∧
    s.pos ≤ (scanWhile p hp s).pos ∧
    (scanWhile p hp s).pos ≤ max s.pos s.input.length ∧
    (p s.ch = true → s.pos < (scanWhile p hp s).pos) ∧
    (∀ i, s.pos ≤ i → i < (scanWhile p hp s).pos → p (s.input.getD i 0) = true) := by
  induction s using scanWhile_ind p hp with
  | h1 s hstop =>
    intro h
    rw [scanWhile_eq, if_neg (by simp [hstop])]
    refine ⟨rfl, h, hstop, le_rfl, le_max_left _ _, ?_, ?_⟩
    · intro hc
      rw [hstop] at hc
      exact Bool.noConfusion hc
    · intro i h1 h2
      omega
  | h2 s hgo ih =>
    intro h
    have hch : s.ch ≠ 0 := by
      intro h0
      rw [h0, hp] at hgo
      exact Bool.noConfusion hgo
    have hlt : s.pos < s.input.length := wf_pos_lt s h hch
    have hwf' : wf (readChar s) := readChar_wf s
    obtain ⟨hi, hw, hs, hmono, hbound, _, hrun⟩ := ih hwf'
    have hpos' : (readChar s).pos = s.pos + 1 := readChar_pos s h
    rw [scanWhile_eq, if_pos hgo]
    have hinput : (readChar s).input = s.input := rfl
    refine ⟨by rw [hi, hinput], hw, hs, ?_, ?_, ?_, ?_⟩
    · omega
    · rw [hinput] at hbound
      omega
    · intro _
      omega
    · intro i hi1 hi2
      rcases Nat.eq_or_lt_of_le hi1 with heq | hlt2
      · rw [← heq]
        rw [h.2.1 hlt] at hgo
        exact hgo
      · have := hrun i (by omega) hi2
        rw [hinput] at this
        exact this

theorem getD_append_len (pre l : List Nat) (c : Nat) :
    (pre ++ c :: l).getD pre.length 0 = c := by
  induction pre with
  | nil => rfl
  | cons a pre ih => simpa using ih

/-- Exact effect of the scanning loop on an input laid out as
`pre ++ w ++ rest` with the cursor at the start of `w`: when every byte of
`w` is in the class and the byte after `w` (if any) is not, the loop stops
exactly at the end of `w`. -/
theorem scanWhile_run (p : Nat → Bool) (hp : p 0 = false) :
    ∀ (w pre rest : List Nat) (s : Lexer), wf s →
      s.input = pre ++ (w ++ rest) → s.pos = pre.length →
      w.all p = true → (∀ c, rest.head? = some c → p c = false) →
      (scanWhile p hp s).pos = pre.length + w.length := by
  intro w
  induction w with
  | nil =>
    intro pre rest s hwf hin hpos _ hrest
    have hstop : p s.ch = false := by
      match rest, hrest with
      | [], _ =>
        have : s.input.length ≤ s.pos := by
          rw [hin, hpos]
          simp
        rw [hwf.2.2 this]
        exact hp
      | c :: rest', hrest =>
        have hin2 : s.input = pre ++ c :: rest' := by simpa using hin
        have hlt : s.pos < s.input.length := by
          rw [hin2, hpos]
          simp
        rw [hwf.2.1 hlt, hin2, hpos, getD_append_len]
        exact hrest c rfl
    rw [scanWhile_eq, if_neg (by simp [hstop]), hpos]
    simp
  | cons c w ih =>
    intro pre rest s hwf hin hpos hall hrest
    have hin' : s.input = pre ++ (c :: (w ++ rest)) := by
      simpa using hin
    have hlt : s.pos < s.input.length := by
      rw [hin', hpos]
      simp
    have hch : s.ch = c := by
      rw [hwf.2.1 hlt, hin', hpos]
      exact getD_append_len pre _ c
    have hpc : p c = true := by
      simp only [List.all_cons, Bool.and_eq_true] at hall
      exact hall.1
    rw [scanWhile_eq, if_pos (by rw [hch]; exact hpc)]
    have hstep := ih (pre ++ [c]) rest (readChar s) (readChar_wf s)
      (by rw [readChar_input, hin']; simp)
      (by rw [readChar_pos s hwf, hpos]; simp)
      (by simp only [List.all_cons, Bool.and_eq_true] at hall; exact hall.2)
      hrest
    rw [hstep]
    simp
    omega

theorem lookupIdent_ne_eof (w : List Nat) : lookupIdent w ≠ Token.EOF := by
  unfold lookupIdent
  split_ifs <;> simp

theorem lookupIdent_ne_illegal (w : List Nat) : lookupIdent w ≠ Token.ILLEGAL := by
  unfold lookupIdent
  split_ifs <;> simp

theorem lookupIdent_ident (w v : List Nat) (h : lookupIdent w = Token.IDENT v) : v = w := by
  unfold lookupIdent at h
  split_ifs at h <;> simp_all

theorem lookupIdent_ne_int (w v : List Nat) : lookupIdent w ≠ Token.INT v := by
  unfold lookupIdent
  split_ifs <;> simp

theorem isAsciiAlphabetic_iff (b : Nat) :
    isAsciiAlphabetic b = true ↔ (65 ≤ b ∧ b ≤ 90) ∨ (97 ≤ b ∧ b ≤ 122) := by
  simp [isAsciiAlphabetic]

theorem isAsciiDigit_iff (b : Nat) : isAsciiDigit b = true ↔ 48 ≤ b ∧ b ≤ 57 := by
  simp [isAsciiDigit]

theorem isIdentChar_iff (b : Nat) :
    isIdentChar b = true ↔ (65 ≤ b ∧ b ≤ 90) ∨ (97 ≤ b ∧ b ≤ 122) ∨ b = 95 := by
  simp [isIdentChar, isAsciiAlphabetic]
  tauto

theorem isAsciiWhitespace_iff (b : Nat) :
    isAsciiWhitespace b = true ↔ b = 32 ∨ b = 9 ∨ b = 10 ∨ b = 12 ∨ b = 13 := by
  simp [isAsciiWhitespace]
  tauto

theorem supported_mem (s : Lexer) (h : wf s) (hsupp : supportedInput s.input = true)
    (hch : s.ch ≠ 0) : supportedByte s.ch = true := by
  have hlt := wf_pos_lt s h hch
  rw [h.2.1 hlt]
  have hmem : s.input.getD s.pos 0 ∈ s.input := by
    rw [List.getD_eq_getElem s.input 0 hlt]
    exact List.getElem_mem hlt
  exact List.all_eq_true.mp hsupp _ hmem

theorem supportedByte_cases (b : Nat) (h : supportedByte b = true) :
    b = 32 ∨ b = 9 ∨ b = 10 ∨ b = 13 ∨
    isAsciiAlphabetic b = true ∨ isAsciiDigit b = true ∨ b = 95 ∨
    b = 61 ∨ b = 33 ∨ b = 123 ∨ b = 125 ∨ b = 40 ∨ b = 41 ∨
    b = 44 ∨ b = 59 ∨ b = 43 ∨ b = 45 ∨ b = 42 ∨ b = 47 ∨
    b = 60 ∨ b = 62 := by
  simp only [supportedByte, Bool.or_eq_true, beq_iff_eq] at h
  tauto

theorem wf_null_end (s : Lexer) (h : wf s) (hsupp : supportedInput s.input = true)
    (h0 : s.ch = 0) : s.input.length ≤ s.pos := by
  by_contra hlt
  have hb : supportedByte (s.input.getD s.pos 0) = true := by
    have hmem : s.input.getD s.pos 0 ∈ s.input := by
      rw [List.getD_eq_getElem s.input 0 (by omega)]
      exact List.getElem_mem (by omega)
    exact List.all_eq_true.mp hsupp _ hmem
  rw [← h.2.1 (by omega), h0] at hb
  simp [supportedByte, isAsciiAlphabetic, isAsciiDigit] at hb

theorem peek_lt (s : Lexer) (hpk : peekChar s ≠ 0) : s.read_pos < s.input.length := by
  by_contra hge
  exact hpk (by simp only [peekChar, if_pos (by omega : s.input.length ≤ s.read_pos)])

theorem atEnd_readChar (s : Lexer) (h : wf s) (hend : s.input.length ≤ s.pos) :
    atEnd (readChar s) := by
  have h1 := h.1
  refine ⟨readChar_wf s, ?_, ?_⟩
  · simp only [readChar]
    rw [if_pos (by omega)]
  · simp only [readChar]
    omega

theorem step_single (s : Lexer) (h : wf s) (t : Token) (hne : t ≠ Token.EOF)
    (heq : tokenOf s = some (t, readChar s)) (hlt : s.pos < s.input.length) :
    stepGoal s := by
  refine ⟨t, readChar s, heq, readChar_wf s, rfl, Or.inr ⟨hne, ?_, ?_⟩⟩ <;>
    rw [readChar_pos s h] <;> omega

theorem step_double (s : Lexer) (h : wf s) (t : Token) (hne : t ≠ Token.EOF)
    (heq : tokenOf s = some (t, readChar (readChar s)))
    (hlt2 : s.read_pos < s.input.length) :
    stepGoal s := by
  have h1 := h.1
  have hp2 : (readChar (readChar s)).pos = s.read_pos + 1 :=
    readChar_pos (readChar s) (readChar_wf s)
  refine ⟨t, readChar (readChar s), heq, readChar_wf _, rfl, Or.inr ⟨hne, ?_, ?_⟩⟩ <;>
    rw [hp2] <;> omega

/-- On a digit the classification takes the integer-run branch. -/
theorem tokenOf_digitClass (s : Lexer) (hdig : isAsciiDigit s.ch = true) :
    tokenOf s = some (Token.INT (readInt s).1, (readInt s).2) := by
  have hr := (isAsciiDigit_iff _).1 hdig
  obtain ⟨q1, q2, q3, q4, q5, q6, q7, q8, q9, q10, q11, q12, q13, q14⟩ :=
    (show ¬(s.ch = 61) ∧ ¬(s.ch = 33) ∧ ¬(s.ch = 123) ∧ ¬(s.ch = 125) ∧ ¬(s.ch = 40) ∧
      ¬(s.ch = 41) ∧ ¬(s.ch = 44) ∧ ¬(s.ch = 59) ∧ ¬(s.ch = 43) ∧ ¬(s.ch = 45) ∧
      ¬(s.ch = 42) ∧ ¬(s.ch = 47) ∧ ¬(s.ch = 60) ∧ ¬(s.ch = 62) by omega)
  unfold tokenOf
  rw [if_neg q1, if_neg q2, if_neg q3, if_neg q4, if_neg q5, if_neg q6, if_neg q7,
    if_neg q8, if_neg q9, if_neg q10, if_neg q11, if_neg q12, if_neg q13, if_neg q14,
    if_pos hdig]

/-- On a letter or underscore the classification takes the identifier-run
branch (with its keyword lookup). -/
theorem tokenOf_identClass (s : Lexer) (hid : isIdentChar s.ch = true) :
    tokenOf s = some (lookupIdent (readIdent s).1, (readIdent s).2) := by
  have hr := (isIdentChar_iff _).1 hid
  obtain ⟨q1, q2, q3, q4, q5, q6, q7, q8, q9, q10, q11, q12, q13, q14, qd⟩ :=
    (show ¬(s.ch = 61) ∧ ¬(s.ch = 33) ∧ ¬(s.ch = 123) ∧ ¬(s.ch = 125) ∧ ¬(s.ch = 40) ∧
      ¬(s.ch = 41) ∧ ¬(s.ch = 44) ∧ ¬(s.ch = 59) ∧ ¬(s.ch = 43) ∧ ¬(s.ch = 45) ∧
      ¬(s.ch = 42) ∧ ¬(s.ch = 47) ∧ ¬(s.ch = 60) ∧ ¬(s.ch = 62) ∧
      ¬(48 ≤ s.ch ∧ s.ch ≤ 57) by omega)
  have qdig : ¬(isAsciiDigit s.ch = true) := by
    rw [isAsciiDigit_iff]
    exact qd
  unfold tokenOf
  rw [if_neg q1, if_neg q2, if_neg q3, if_neg q4, if_neg q5, if_neg q6, if_neg q7,
    if_neg q8, if_neg q9, if_neg q10, if_neg q11, if_neg q12, if_neg q13, if_neg q14,
    if_neg qdig, if_pos hid]

/-- Totality-and-progress of the classification step on a well-formed state
over the supported alphabet whose current byte is not whitespace: the match
always produces a token; the `EOF` case leaves an at-end state, every other
case strictly advances the cursor within the buffer. -/
theorem tokenOf_spec (s : Lexer) (h : wf s) (hsupp : supportedInput s.input = true)
    (hnw : isAsciiWhitespace s.ch = false) : stepGoal s := by
  by_cases h0 : s.ch = 0
  · have hend : s.input.length ≤ s.pos := wf_null_end s h hsupp h0
    have heq : tokenOf s = some (Token.EOF, readChar s) := by
      simp [tokenOf, h0, isAsciiDigit, isIdentChar, isAsciiAlphabetic]
    exact ⟨Token.EOF, readChar s, heq, readChar_wf s, rfl,
      Or.inl ⟨rfl, atEnd_readChar s h hend⟩⟩
  · have hlt : s.pos < s.input.length := wf_pos_lt s h h0
    rcases supportedByte_cases s.ch (supported_mem s h hsupp h0) with
      hb | hb | hb | hb | hb | hb | hb | hb | hb | hb | hb | hb | hb | hb | hb | hb |
      hb | hb | hb | hb | hb
    · rw [hb] at hnw; exact absurd hnw (by decide)
    · rw [hb] at hnw; exact absurd hnw (by decide)
    · rw [hb] at hnw; exact absurd hnw (by decide)
    · rw [hb] at hnw; exact absurd hnw (by decide)
    · -- letter: identifier/keyword run
      have hid : isIdentChar s.ch = true := by
        rw [isIdentChar_iff]
        rcases (isAsciiAlphabetic_iff _).1 hb with hr | hr
        · exact Or.inl hr
        · exact Or.inr (Or.inl hr)
      obtain ⟨hi2, hw2, _, _, hbd2, hprog2, _⟩ := scanWhile_spec isIdentChar rfl s h
      refine ⟨_, _, tokenOf_identClass s hid, hw2, hi2,
        Or.inr ⟨lookupIdent_ne_eof _, hprog2 hid, ?_⟩⟩
      have : max s.pos s.input.length = s.input.length := by omega
      rw [this] at hbd2
      exact hbd2
    · -- digit: integer run
      obtain ⟨hi2, hw2, _, _, hbd2, hprog2, _⟩ := scanWhile_spec isAsciiDigit rfl s h
      refine ⟨_, _, tokenOf_digitClass s hb, hw2, hi2, Or.inr ⟨by simp, hprog2 hb, ?_⟩⟩
      have : max s.pos s.input.length = s.input.length := by omega
      rw [this] at hbd2
      exact hbd2
    · -- underscore: identifier/keyword run
      have hid : isIdentChar s.ch = true := by rw [isIdentChar_iff]; omega
      obtain ⟨hi2, hw2, _, _, hbd2, hprog2, _⟩ := scanWhile_spec isIdentChar rfl s h
      refine ⟨_, _, tokenOf_identClass s hid, hw2, hi2,
        Or.inr ⟨lookupIdent_ne_eof _, hprog2 hid, ?_⟩⟩
      have : max s.pos s.input.length = s.input.length := by omega
      rw [this] at hbd2
      exact hbd2
    · -- `=`: assignment or equality, depending on the peeked byte
      by_cases hpk : peekChar s = 61
      · exact step_double s h Token.EQUAL (by simp) (by simp [tokenOf, hb, hpk])
          (peek_lt s (by omega))
      · exact step_single s h Token.ASSIGN (by simp) (by simp [tokenOf, hb, hpk]) hlt
    · -- `!`: negation or inequality, depending on the peeked byte
      by_cases hpk : peekChar s = 61
      · exact step_double s h Token.NOTEQUAL (by simp) (by simp [tokenOf, hb, hpk])
          (peek_lt s (by omega))
      · exact step_single s h Token.BANG (by simp) (by simp [tokenOf, hb, hpk]) hlt
    · exact step_single s h Token.LBRACE (by simp) (by simp [tokenOf, hb]) hlt
    · exact step_single s h Token.RBRACE (by simp) (by simp [tokenOf, hb]) hlt
    · exact step_single s h Token.LPAREN (by simp) (by simp [tokenOf, hb]) hlt
    · exact step_single s h Token.RPAREN (by simp) (by simp [tokenOf, hb]) hlt
    · exact step_single s h Token.COMMA (by simp) (by simp [tokenOf, hb]) hlt
    · exact step_single s h Token.SEMICOLON (by simp) (by simp [tokenOf, hb]) hlt
    · exact step_single s h Token.PLUS (by simp) (by simp [tokenOf, hb]) hlt
    · exact step_single s h Token.MINUS (by simp) (by simp [tokenOf, hb]) hlt
    · exact step_single s h Token.ASTERISK (by simp) (by simp [tokenOf, hb]) hlt
    · exact step_single s h Token.SLASH (by simp) (by simp [tokenOf, hb]) hlt
    · exact step_single s h Token.LT (by simp) (by simp [tokenOf, hb]) hlt
    · exact step_single s h Token.GT (by simp) (by simp [tokenOf, hb]) hlt

/-- Step behaviour of `next_token` on a well-formed supported-alphabet state:
one token is always produced; the cursor strictly advances within the buffer
except in the `EOF` case, which leaves an at-end state. -/
theorem nextToken_step (s : Lexer) (h : wf s) (hsupp : supportedInput s.input = true) :
    ∃ t s', nextToken s = some (t, s') ∧ wf s' ∧ s'.input = s.input ∧
      ((t = Token.EOF ∧ atEnd s') ∨
       (t ≠ Token.EOF ∧ s.pos < s'.pos ∧ s'.pos ≤ s.input.length)) := by
  have hsw : skipWhitespace s = scanWhile isAsciiWhitespace rfl s := rfl
  obtain ⟨hi1, hw1, hs1, hm1, _, _, _⟩ := scanWhile_spec isAsciiWhitespace rfl s h
  rw [← hsw] at hi1 hw1 hs1 hm1
  have hsupp1 : supportedInput (skipWhitespace s).input = true := by
    rw [hi1]
    exact hsupp
  obtain ⟨t, s', heq, hw', hi', hcase⟩ := tokenOf_spec (skipWhitespace s) hw1 hsupp1 hs1
  refine ⟨t, s', heq, hw', by rw [hi', hi1], ?_⟩
  rcases hcase with ⟨hteof, hAend⟩ | ⟨hne, hlt2, hle2⟩
  · exact Or.inl ⟨hteof, hAend⟩
  · refine Or.inr ⟨hne, by omega, ?_⟩
    rw [hi1] at hle2
    exact hle2

/-- On an at-end state `next_token` yields `EOF` (performing its trailing
`read_char`), and the successor state is again at-end. -/
theorem atEnd_next (s : Lexer) (hA : atEnd s) :
    nextToken s = some (Token.EOF, readChar s) ∧ atEnd (readChar s) := by
  obtain ⟨hw, h0, hend⟩ := hA
  have hskip : skipWhitespace s = s := by
    unfold skipWhitespace
    rw [scanWhile_eq, if_neg (show ¬(isAsciiWhitespace s.ch = true) by rw [h0]; decide)]
  have heq : tokenOf s = some (Token.EOF, readChar s) := by
    simp [tokenOf, h0, isAsciiDigit, isIdentChar, isAsciiAlphabetic]
  refine ⟨?_, atEnd_readChar s hw hend⟩
  unfold nextToken
  rw [hskip]
  exact heq

/-- Every call made from an at-end state yields `EOF` again. -/
theorem callN_eof (n : Nat) : ∀ s, atEnd s →
    ∃ s', callN n s = some (Token.EOF, s') ∧ atEnd s' := by
  induction n with
  | zero =>
    intro s hA
    exact ⟨readChar s, (atEnd_next s hA).1, (atEnd_next s hA).2⟩
  | succ n ih =>
    intro s hA
    obtain ⟨h1, h2⟩ := atEnd_next s hA
    obtain ⟨s', hc, hA'⟩ := ih (readChar s) h2
    refine ⟨s', ?_, hA'⟩
    unfold callN
    rw [h1]
    exact hc

/-- Fuel one beyond the number of unread bytes suffices for tokenisation to
terminate in a token list ending in a single `EOF`, leaving an at-end state. -/
theorem tokenize_total : ∀ (fuel : Nat) (s : Lexer), wf s →
    supportedInput s.input = true →
    s.pos ≤ s.input.length → s.input.length + 1 ≤ fuel + s.pos →
    ∃ ts sF, tokenizeSt fuel s = some (ts, sF) ∧ ts.getLast? = some Token.EOF ∧
      ts.count Token.EOF = 1 ∧ atEnd sF := by
  intro fuel
  induction fuel with
  | zero =>
    intro s _ _ hle hf
    omega
  | succ fuel ih =>
    intro s hw hsupp hle hf
    obtain ⟨t, s', heq, hw', hi', hcase⟩ := nextToken_step s hw hsupp
    rcases hcase with ⟨hteof, hAend⟩ | ⟨hne, hlt, hbound⟩
    · subst hteof
      refine ⟨[Token.EOF], s', ?_, rfl, by decide, hAend⟩
      unfold tokenizeSt
      rw [heq]
      simp
    · obtain ⟨ts, sF, hrec, hlast, hcount, hAend⟩ := ih s'
        hw' (by rw [hi']; exact hsupp) (by rw [hi']; exact hbound) (by rw [hi']; omega)
      have hne2 : ts ≠ [] := by
        intro hnil
        rw [hnil] at hlast
        exact Option.noConfusion hlast
      obtain ⟨a, ts', rfl⟩ := List.exists_cons_of_ne_nil hne2
      refine ⟨t :: a :: ts', sF, ?_, ?_, ?_, hAend⟩
      · unfold tokenizeSt
        simp only [heq, if_neg hne, hrec]
      · rw [List.getLast?_cons_cons]
        exact hlast
      · rw [List.count_cons]
        rw [hcount]
        simp [hne]

/-- C1: for every input over the supported ASCII alphabet, repeatedly calling
`next_token` terminates in a finite token sequence ending with exactly one
end-of-input token, and every call made after end-of-input is first returned
yields end-of-input again. -/
theorem C1_totality (input : List Nat) (hsupp : supportedInput input = true) :
    ∃ ts sF, tokenizeSt (input.length + 1) (Lexer.new input) = some (ts, sF) ∧
      ts.getLast? = some Token.EOF ∧ ts.count Token.EOF = 1 ∧
      ∀ n, ∃ s', callN n sF = some (Token.EOF, s') := by
  obtain ⟨ts, sF, h1, h2, h3, h4⟩ := tokenize_total (input.length + 1) (Lexer.new input)
    (readChar_wf _) hsupp (by simp [Lexer.new, readChar]) (by simp [Lexer.new, readChar])
  exact ⟨ts, sF, h1, h2, h3, fun n =>
    (callN_eof n sF h4).elim fun s' hs => ⟨s', hs.1⟩⟩

/-- Witness for C1 at the concrete input `"="`. -/
theorem C1_totality_witness :
    supportedInput [61] = true ∧
    (∃ ts sF, tokenizeSt 2 (Lexer.new [61]) = some (ts, sF) ∧
      ts.getLast? = some Token.EOF ∧ ts.count Token.EOF = 1 ∧
      ∀ n, ∃ s', callN n sF = some (Token.EOF, s')) :=
  ⟨by decide, C1_totality [61] (by decide)⟩

/-- C4: `"=="` yields one equality token with both characters consumed (the
following call yields end-of-input), `"!="` one inequality token likewise,
`"="` alone yields assignment, `"!"` alone yields negation. -/
theorem C4_two_char_lookahead :
    nextToken (Lexer.new [61, 61]) = some (Token.EQUAL, ⟨[61, 61], 2, 3, 0⟩) ∧
    nextToken (⟨[61, 61], 2, 3, 0⟩ : Lexer) = some (Token.EOF, ⟨[61, 61], 3, 4, 0⟩) ∧
    nextToken (Lexer.new [33, 61]) = some (Token.NOTEQUAL, ⟨[33, 61], 2, 3, 0⟩) ∧
    nextToken (⟨[33, 61], 2, 3, 0⟩ : Lexer) = some (Token.EOF, ⟨[33, 61], 3, 4, 0⟩) ∧
    nextToken (Lexer.new [61]) = some (Token.ASSIGN, ⟨[61], 1, 2, 0⟩) ∧
    nextToken (Lexer.new [33]) = some (Token.BANG, ⟨[33], 1, 2, 0⟩) := by
  refine ⟨?_, ?_, ?_, ?_, ?_, ?_⟩ <;>
    simp [nextToken, tokenOf, skipWhitespace, scanWhile_eq, readChar, peekChar, Lexer.new,
      isAsciiWhitespace, isAsciiDigit, isAsciiAlphabetic, isIdentChar, lookupIdent,
      readIdent, readInt, slice]

/-- C8: on a well-formed state whose buffer lies in the supported alphabet,
the classification always produces a token — the catch-all `unreachable!()`
branch (modelled by `none`) is never taken. -/
theorem C8_no_panic (s : Lexer) (h : wf s) (hsupp : supportedInput s.input = true) :
    ∃ t s', nextToken s = some (t, s') := by
  obtain ⟨t, s', heq, _⟩ := nextToken_step s h hsupp
  exact ⟨t, s', heq⟩

/-- Witness for C8 at the concrete input `"+"`. -/
theorem C8_no_panic_witness : ∃ t s', nextToken (Lexer.new [43]) = some (t, s') :=
  C8_no_panic (Lexer.new [43]) (by decide) (by decide)

/-- Complete case analysis of a successful classification step: which match
arm fired, which token it yielded, and what the successor state is. -/
theorem tokenOf_master (s : Lexer) (t : Token) (s' : Lexer) (h : tokenOf s = some (t, s')) :
    (s.ch = 0 ∧ t = Token.EOF ∧ s' = readChar s) ∨
    (isAsciiDigit s.ch = true ∧ t = Token.INT (readInt s).1 ∧ s' = (readInt s).2) ∨
    (isIdentChar s.ch = true ∧ t = lookupIdent (readIdent s).1 ∧ s' = (readIdent s).2) ∨
    ((t = Token.EQUAL ∨ t = Token.NOTEQUAL) ∧ s' = readChar (readChar s)) ∨
    ((t = Token.ASSIGN ∨ t = Token.BANG ∨ t = Token.LBRACE ∨ t = Token.RBRACE ∨
      t = Token.LPAREN ∨ t = Token.RPAREN ∨ t = Token.COMMA ∨ t = Token.SEMICOLON ∨
      t = Token.PLUS ∨ t = Token.MINUS ∨ t = Token.ASTERISK ∨ t = Token.SLASH ∨
      t = Token.LT ∨ t = Token.GT) ∧ s' = readChar s) := by
  unfold tokenOf at h
  by_cases hc1 : s.ch = 61
  case pos =>
    rw [if_pos hc1] at h
    by_cases hq1 : peekChar s = 61
    case pos =>
      rw [if_pos hq1] at h
      simp only [Option.some.injEq, Prod.mk.injEq] at h
      obtain ⟨h1, h2⟩ := h
      subst h1
      subst h2
      simp
    rw [if_neg hq1] at h
    simp only [Option.some.injEq, Prod.mk.injEq] at h
    obtain ⟨h1, h2⟩ := h
    subst h1
    subst h2
    simp
  rw [if_neg hc1] at h
  by_cases hc2 : s.ch = 33
  case pos =>
    rw [if_pos hc2] at h
    by_cases hq2 : peekChar s = 61
    case pos =>
      rw [if_pos hq2] at h
      simp only [Option.some.injEq, Prod.mk.injEq] at h
      obtain ⟨h1, h2⟩ := h
      subst h1
      subst h2
      simp
    rw [if_neg hq2] at h
    simp only [Option.some.injEq, Prod.mk.injEq] at h
    obtain ⟨h1, h2⟩ := h
    subst h1
    subst h2
    simp
  rw [if_neg hc2] at h
  by_cases hc3 : s.ch = 123
  case pos =>
    rw [if_pos hc3] at h
    simp only [Option.some.injEq, Prod.mk.injEq] at h
    obtain ⟨h1, h2⟩ := h
    subst h1
    subst h2
    simp
  rw [if_neg hc3] at h
  by_cases hc4 : s.ch = 125
  case pos =>
    rw [if_pos hc4] at h
    simp only [Option.some.injEq, Prod.mk.injEq] at h
    obtain ⟨h1, h2⟩ := h
    subst h1
    subst h2
    simp
  rw [if_neg hc4] at h
  by_cases hc5 : s.ch = 40
  case pos =>
    rw [if_pos hc5] at h
    simp only [Option.some.injEq, Prod.mk.injEq] at h
    obtain ⟨h1, h2⟩ := h
    subst h1
    subst h2
    simp
  rw [if_neg hc5] at h
  by_cases hc6 : s.ch = 41
  case pos =>
    rw [if_pos hc6] at h
    simp only [Option.some.injEq, Prod.mk.injEq] at h
    obtain ⟨h1, h2⟩ := h
    subst h1
    subst h2
    simp
  rw [if_neg hc6] at h
  by_cases hc7 : s.ch = 44
  case pos =>
    rw [if_pos hc7] at h
    simp only [Option.some.injEq, Prod.mk.injEq] at h
    obtain ⟨h1, h2⟩ := h
    subst h1
    subst h2
    simp
  rw [if_neg hc7] at h
  by_cases hc8 : s.ch = 59
  case pos =>
    rw [if_pos hc8] at h
    simp only [Option.some.injEq, Prod.mk.injEq] at h
    obtain ⟨h1, h2⟩ := h
    subst h1
    subst h2
    simp
  rw [if_neg hc8] at h
  by_cases hc9 : s.ch = 43
  case pos =>
    rw [if_pos hc9] at h
    simp only [Option.some.injEq, Prod.mk.injEq] at h
    obtain ⟨h1, h2⟩ := h
    subst h1
    subst h2
    simp
  rw [if_neg hc9] at h
  by_cases hc10 : s.ch = 45
  case pos =>
    rw [if_pos hc10] at h
    simp only [Option.some.injEq, Prod.mk.injEq] at h
    obtain ⟨h1, h2⟩ := h
    subst h1
    subst h2
    simp
  rw [if_neg hc10] at h
  by_cases hc11 : s.ch = 42
  case pos =>
    rw [if_pos hc11] at h
    simp only [Option.some.injEq, Prod.mk.injEq] at h
    obtain ⟨h1, h2⟩ := h
    subst h1
    subst h2
    simp
  rw [if_neg hc11] at h
  by_cases hc12 : s.ch = 47
  case pos =>
    rw [if_pos hc12] at h
    simp only [Option.some.injEq, Prod.mk.injEq] at h
    obtain ⟨h1, h2⟩ := h
    subst h1
    subst h2
    simp
  rw [if_neg hc12] at h
  by_cases hc13 : s.ch = 60
  case pos =>
    rw [if_pos hc13] at h
    simp only [Option.some.injEq, Prod.mk.injEq] at h
    obtain ⟨h1, h2⟩ := h
    subst h1
    subst h2
    simp
  rw [if_neg hc13] at h
  by_cases hc14 : s.ch = 62
  case pos =>
    rw [if_pos hc14] at h
    simp only [Option.some.injEq, Prod.mk.injEq] at h
    obtain ⟨h1, h2⟩ := h
    subst h1
    subst h2
    simp
  rw [if_neg hc14] at h
  by_cases hc15 : isAsciiDigit s.ch = true
  case pos =>
    rw [if_pos hc15] at h
    simp only [Option.some.injEq, Prod.mk.injEq] at h
    obtain ⟨h1, h2⟩ := h
    subst h1
    subst h2
    simp [hc15]
  rw [if_neg hc15] at h
  by_cases hc16 : isIdentChar s.ch = true
  case pos =>
    rw [if_pos hc16] at h
    simp only [Option.some.injEq, Prod.mk.injEq] at h
    obtain ⟨h1, h2⟩ := h
    subst h1
    subst h2
    simp [hc16]
  rw [if_neg hc16] at h
  by_cases hc17 : s.ch = 0
  case pos =>
    rw [if_pos hc17] at h
    simp only [Option.some.injEq, Prod.mk.injEq] at h
    obtain ⟨h1, h2⟩ := h
    subst h1
    subst h2
    simp [hc17]
  rw [if_neg hc17] at h
  exact Option.noConfusion h

/-- C9: whenever `next_token` returns a token it is never the `ILLEGAL`
variant, for every input and every scanner state. -/
theorem C9_no_illegal (s : Lexer) (t : Token) (s' : Lexer)
    (h : nextToken s = some (t, s')) : t ≠ Token.ILLEGAL := by
  unfold nextToken at h
  rcases tokenOf_master _ _ _ h with ⟨_, rfl, _⟩ | ⟨_, rfl, _⟩ | ⟨_, rfl, _⟩ |
    ⟨rfl | rfl, _⟩ |
    ⟨rfl | rfl | rfl | rfl | rfl | rfl | rfl | rfl | rfl | rfl | rfl | rfl | rfl | rfl, _⟩ <;>
    first
    | exact lookupIdent_ne_illegal _
    | simp

/-- Witness for C9 at the concrete input `"="`. -/
theorem C9_no_illegal_witness : Token.ASSIGN ≠ Token.ILLEGAL :=
  C9_no_illegal (Lexer.new [61]) Token.ASSIGN ⟨[61], 1, 2, 0⟩
    (by simp [nextToken, tokenOf, skipWhitespace, scanWhile_eq, readChar, peekChar, Lexer.new,
      isAsciiWhitespace, isAsciiDigit, isAsciiAlphabetic, isIdentChar, lookupIdent,
      readIdent, readInt, slice])

/-- C10: the cursor-consistency invariant — `read_pos = pos + 1` and `ch`
caches the byte at `pos` (sentinel 0 at or past the end) — holds after
construction and is preserved by every `next_token` call. -/
theorem C10_invariant :
    (∀ input, wf (Lexer.new input)) ∧
    (∀ s t s', wf s → nextToken s = some (t, s') → wf s') := by
  refine ⟨fun input => readChar_wf _, fun s t s' hw h => ?_⟩
  have hsw : skipWhitespace s = scanWhile isAsciiWhitespace rfl s := rfl
  obtain ⟨_, hw1, _, _, _, _, _⟩ := scanWhile_spec isAsciiWhitespace rfl s hw
  rw [← hsw] at hw1
  unfold nextToken at h
  rcases tokenOf_master _ _ _ h with ⟨_, _, rfl⟩ | ⟨_, _, rfl⟩ | ⟨_, _, rfl⟩ |
    ⟨_, rfl⟩ | ⟨_, rfl⟩
  · exact readChar_wf _
  · exact (scanWhile_spec isAsciiDigit rfl (skipWhitespace s) hw1).2.1
  · exact (scanWhile_spec isIdentChar rfl (skipWhitespace s) hw1).2.1
  · exact readChar_wf _
  · exact readChar_wf _

/-- Witness for C10: the invariant after lexing one token of `"+"`. -/
theorem C10_invariant_witness : wf (⟨[43], 1, 2, 0⟩ : Lexer) :=
  C10_invariant.2 (Lexer.new [43]) Token.PLUS ⟨[43], 1, 2, 0⟩ (C10_invariant.1 [43])
    (by simp [nextToken, tokenOf, skipWhitespace, scanWhile_eq, readChar, peekChar, Lexer.new,
      isAsciiWhitespace, isAsciiDigit, isAsciiAlphabetic, isIdentChar, lookupIdent,
      readIdent, readInt, slice])

/-- C7 counterexample: on the sentinel (empty input) the claim that the
state is unchanged by `next_token` is false — the `0` match arm is not an
early return, so the trailing `read_char` still advances the position
fields. -/
theorem C7_counterexample :
    nextToken (Lexer.new []) = some (Token.EOF, ⟨[], 1, 2, 0⟩) ∧
    Lexer.new [] = ⟨[], 0, 1, 0⟩ ∧
    (⟨[], 1, 2, 0⟩ : Lexer) ≠ Lexer.new [] := by
  refine ⟨?_, by decide, by decide⟩
  simp [nextToken, tokenOf, skipWhitespace, scanWhile_eq, readChar, peekChar, Lexer.new,
    isAsciiWhitespace, isAsciiDigit, isAsciiAlphabetic, isIdentChar, lookupIdent,
    readIdent, readInt, slice]

/-- C7 amended: on the sentinel, `next_token` yields end-of-input but still
performs the generic trailing advance: `pos` and `read_pos` grow by one,
and the current character stays the sentinel when the buffer was exhausted. -/
theorem C7_amended_sentinel (s : Lexer) (h : wf s) (h0 : s.ch = 0) :
    nextToken s = some (Token.EOF, readChar s) ∧
    (readChar s).pos = s.pos + 1 ∧ (readChar s).read_pos = s.read_pos + 1 ∧
    (s.input.length ≤ s.pos → (readChar s).ch = 0) := by
  have hskip : skipWhitespace s = s := by
    unfold skipWhitespace
    rw [scanWhile_eq, if_neg (show ¬(isAsciiWhitespace s.ch = true) by rw [h0]; decide)]
  have heq : tokenOf s = some (Token.EOF, readChar s) := by
    simp [tokenOf, h0, isAsciiDigit, isIdentChar, isAsciiAlphabetic]
  refine ⟨?_, readChar_pos s h, rfl, ?_⟩
  · unfold nextToken
    rw [hskip]
    exact heq
  · intro hend
    have h1 := h.1
    simp only [readChar]
    rw [if_pos (by omega)]

/-- Witness for the amended C7 at the exhausted state of the empty input. -/
theorem C7_amended_sentinel_witness :
    nextToken (⟨[], 0, 1, 0⟩ : Lexer) = some (Token.EOF, readChar ⟨[], 0, 1, 0⟩) ∧
    (readChar (⟨[], 0, 1, 0⟩ : Lexer)).pos = 0 + 1 ∧
    (readChar (⟨[], 0, 1, 0⟩ : Lexer)).read_pos = 1 + 1 ∧
    (([] : List Nat).length ≤ 0 → (readChar (⟨[], 0, 1, 0⟩ : Lexer)).ch = 0) :=
  C7_amended_sentinel ⟨[], 0, 1, 0⟩ (by decide) rfl

/-- C6 counterexample: the form-feed byte 12 is skipped as whitespace though
it is not among the four bytes the claim lists. -/
theorem C6_counterexample :
    skipWhitespace (Lexer.new [12, 43]) = ⟨[12, 43], 1, 2, 43⟩ ∧
    ¬((12 : Nat) = 32 ∨ (12 : Nat) = 9 ∨ (12 : Nat) = 10 ∨ (12 : Nat) = 13) := by
  refine ⟨?_, by decide⟩
  simp [skipWhitespace, scanWhile_eq, readChar, Lexer.new, isAsciiWhitespace]

/-- C6 amended: one whitespace-skipping step consumes the current character
if and only if it is one of exactly these five bytes: space, tab, newline,
form feed, carriage return. -/
theorem C6_amended_whitespace (s : Lexer) :
    (isAsciiWhitespace s.ch = true ↔
      (s.ch = 32 ∨ s.ch = 9 ∨ s.ch = 10 ∨ s.ch = 12 ∨ s.ch = 13)) ∧
    (isAsciiWhitespace s.ch = true → skipWhitespace s = skipWhitespace (readChar s)) ∧
    (isAsciiWhitespace s.ch = false → skipWhitespace s = s) := by
  refine ⟨isAsciiWhitespace_iff _, fun hws => ?_, fun hnw => ?_⟩
  · unfold skipWhitespace
    rw [scanWhile_eq, if_pos hws]
  · unfold skipWhitespace
    rw [scanWhile_eq, if_neg (by simp [hnw])]

/-- Witness for the amended C6: the skipping step consumes a form feed. -/
theorem C6_amended_whitespace_witness :
    skipWhitespace (Lexer.new [12, 43]) = skipWhitespace (readChar (Lexer.new [12, 43])) :=
  (C6_amended_whitespace (Lexer.new [12, 43])).2.1 (by decide)

/-- C5 counterexample: on the input `[0, 43]` (a NUL byte then `'+'`),
`next_token` yields end-of-input while the `'+'` byte is still unconsumed —
the very next call returns a plus token. -/
theorem C5_counterexample :
    nextToken (Lexer.new [0, 43]) = some (Token.EOF, ⟨[0, 43], 1, 2, 43⟩) ∧
    nextToken (⟨[0, 43], 1, 2, 43⟩ : Lexer) = some (Token.PLUS, ⟨[0, 43], 2, 3, 0⟩) ∧
    (Lexer.new [0, 43]).pos < ([0, 43] : List Nat).length := by
  refine ⟨?_, ?_, by decide⟩ <;>
    simp [nextToken, tokenOf, skipWhitespace, scanWhile_eq, readChar, peekChar, Lexer.new,
      isAsciiWhitespace, isAsciiDigit, isAsciiAlphabetic, isIdentChar, lookupIdent,
      readIdent, readInt, slice]

theorem wf_nonull_end (s : Lexer) (h : wf s)
    (hnz : s.input.all (fun b => !(b == 0)) = true) (h0 : s.ch = 0) :
    s.input.length ≤ s.pos := by
  by_contra hlt
  have hb : (fun b => !(b == 0)) (s.input.getD s.pos 0) = true := by
    have hmem : s.input.getD s.pos 0 ∈ s.input := by
      rw [List.getD_eq_getElem s.input 0 (by omega)]
      exact List.getElem_mem (by omega)
    exact List.all_eq_true.mp hnz _ hmem
  rw [← h.2.1 (by omega), h0] at hb
  simp at hb

/-- C5 amended: on well-formed states whose buffer contains no NUL byte,
`next_token` returns end-of-input only with the cursor past the last byte of
the buffer (every earlier byte having been consumed).  With a NUL byte in
the buffer end-of-input can be returned prematurely. -/
theorem C5_amended_no_premature_eof (s s' : Lexer) (h : wf s)
    (hnz : s.input.all (fun b => !(b == 0)) = true)
    (heof : nextToken s = some (Token.EOF, s')) :
    s.input.length ≤ s'.pos := by
  have hsw : skipWhitespace s = scanWhile isAsciiWhitespace rfl s := rfl
  obtain ⟨hi1, hw1, _, _, _, _, _⟩ := scanWhile_spec isAsciiWhitespace rfl s h
  rw [← hsw] at hi1 hw1
  have hnz1 : (skipWhitespace s).input.all (fun b => !(b == 0)) = true := by
    rw [hi1]
    exact hnz
  unfold nextToken at heof
  rcases tokenOf_master _ _ _ heof with ⟨h0, _, rfl⟩ | ⟨_, hteq, _⟩ | ⟨_, hteq, _⟩ |
    ⟨hteq | hteq, _⟩ |
    ⟨hteq | hteq | hteq | hteq | hteq | hteq | hteq | hteq | hteq | hteq | hteq | hteq |
     hteq | hteq, _⟩
  · have hend : (skipWhitespace s).input.length ≤ (skipWhitespace s).pos :=
      wf_nonull_end (skipWhitespace s) hw1 hnz1 h0
    have hp := readChar_pos (skipWhitespace s) hw1
    rw [← hi1]
    omega
  all_goals first
    | exact absurd hteq (by simp)
    | exact absurd hteq (Ne.symm (lookupIdent_ne_eof _))

theorem identChar_not_ws (b : Nat) (h : isIdentChar b = true) :
    isAsciiWhitespace b = false := by
  have hr := (isIdentChar_iff b).1 h
  by_cases hb : isAsciiWhitespace b = true
  · exact absurd ((isAsciiWhitespace_iff b).1 hb) (by omega)
  · simpa using hb

theorem slice_length (l : List Nat) (a b : Nat) (ha : a ≤ b) (hb : b ≤ l.length) :
    (slice l a b).length = b - a := by
  simp only [slice, List.length_take, List.length_drop]
  omega

theorem slice_all (p : Nat → Bool) (l : List Nat) (a b : Nat) (hb : b ≤ l.length)
    (hrun : ∀ i, a ≤ i → i < b → p (l.getD i 0) = true) :
    (slice l a b).all p = true := by
  rw [List.all_eq_true]
  intro x hx
  rw [List.mem_iff_getElem] at hx
  obtain ⟨k, hk, rfl⟩ := hx
  have hk2 : k < b - a ∧ a + k < l.length := by
    have hk' := hk
    simp only [slice, List.length_take, List.length_drop] at hk'
    omega
  simp only [slice, List.getElem_take, List.getElem_drop]
  rw [← List.getD_eq_getElem l 0 (by omega)]
  exact hrun (a + k) (by omega) (by omega)

/-- C3: a scanned letter/underscore run that equals one of the seven keyword
strings (in the source order `fn`, `let`, `if`, `return`, `true`, `false`,
`else`, written here as ASCII byte lists) yields the keyword token, never an
identifier token; any other run yields an identifier token carrying the full
matched text. -/
theorem C3_keywords (w rest : List Nat) (hne : w ≠ [])
    (hall : w.all isIdentChar = true)
    (hrest : ∀ c, rest.head? = some c → isIdentChar c = false) :
    ∃ s', nextToken (Lexer.new (w ++ rest)) = some
      (if w = [102, 110] then Token.FUNCTION
       else if w = [108, 101, 116] then Token.LET
       else if w = [105, 102] then Token.IF
       else if w = [114, 101, 116, 117, 114, 110] then Token.RETURN
       else if w = [116, 114, 117, 101] then Token.TRUE
       else if w = [102, 97, 108, 115, 101] then Token.FALSE
       else if w = [101, 108, 115, 101] then Token.ELSE
       else Token.IDENT w, s') := by
  obtain ⟨c, w0, rfl⟩ := List.exists_cons_of_ne_nil hne
  have hwf0 : wf (Lexer.new ((c :: w0) ++ rest)) := readChar_wf _
  have hch : (Lexer.new ((c :: w0) ++ rest)).ch = c := by
    simp [Lexer.new, readChar]
  have hin : (Lexer.new ((c :: w0) ++ rest)).input = (c :: w0) ++ rest := rfl
  have hpos : (Lexer.new ((c :: w0) ++ rest)).pos = 0 := rfl
  have hidc : isIdentChar c = true := by
    simp only [List.all_cons, Bool.and_eq_true] at hall
    exact hall.1
  have hr := (isIdentChar_iff c).1 hidc
  have hskip : skipWhitespace (Lexer.new ((c :: w0) ++ rest)) =
      Lexer.new ((c :: w0) ++ rest) := by
    unfold skipWhitespace
    rw [scanWhile_eq,
      if_neg (show ¬(isAsciiWhitespace (Lexer.new ((c :: w0) ++ rest)).ch = true) by
        rw [hch, isAsciiWhitespace_iff]; omega)]
  have htok : tokenOf (Lexer.new ((c :: w0) ++ rest)) =
      some (lookupIdent (readIdent (Lexer.new ((c :: w0) ++ rest))).1,
            (readIdent (Lexer.new ((c :: w0) ++ rest))).2) :=
    tokenOf_identClass _ (by rw [hch]; exact hidc)
  have hrun := scanWhile_run isIdentChar rfl (c :: w0) [] rest
    (Lexer.new ((c :: w0) ++ rest)) hwf0 (by rw [hin]; simp) (by rw [hpos]; rfl) hall hrest
  have hpay : (readIdent (Lexer.new ((c :: w0) ++ rest))).1 = c :: w0 := by
    show slice (Lexer.new ((c :: w0) ++ rest)).input (Lexer.new ((c :: w0) ++ rest)).pos
      (scanWhile isIdentChar rfl (Lexer.new ((c :: w0) ++ rest))).pos = c :: w0
    rw [hrun, hin, hpos]
    simp only [slice, List.drop_zero, List.length_nil, Nat.zero_add, Nat.sub_zero]
    exact List.take_left _ _
  refine ⟨(readIdent (Lexer.new ((c :: w0) ++ rest))).2, ?_⟩
  unfold nextToken
  rw [hskip, htok, hpay]
  rfl

/-- Witness for C3: the run `"let"` followed by `";"` yields the let-binding
keyword token. -/
theorem C3_keywords_witness :
    ∃ s', nextToken (Lexer.new ([108, 101, 116] ++ [59])) = some
      (if [108, 101, 116] = [102, 110] then Token.FUNCTION
       else if [108, 101, 116] = [108, 101, 116] then Token.LET
       else if [108, 101, 116] = [105, 102] then Token.IF
       else if [108, 101, 116] = [114, 101, 116, 117, 114, 110] then Token.RETURN
       else if [108, 101, 116] = [116, 114, 117, 101] then Token.TRUE
       else if [108, 101, 116] = [102, 97, 108, 115, 101] then Token.FALSE
       else if [108, 101, 116] = [101, 108, 115, 101] then Token.ELSE
       else Token.IDENT [108, 101, 116], s') :=
  C3_keywords [108, 101, 116] [59] (by decide) (by decide)
    (by
      intro c hc
      simp only [List.head?_cons, Option.some.injEq] at hc
      subst hc
      decide)

/-- C2 counterexample: the input `"a1"` (bytes 97, 49) is one contiguous
alphanumeric run, yet the scanner splits it into an identifier token `"a"`
and an integer token `"1"`; the captured identifier text is immediately
followed (pre-advance, i.e. in the returned state's current character) by
the byte 49, which lies in the alphanumeric-or-underscore class. -/
theorem C2_counterexample :
    nextToken (Lexer.new [97, 49]) = some (Token.IDENT [97], ⟨[97, 49], 1, 2, 49⟩) ∧
    nextToken (⟨[97, 49], 1, 2, 49⟩ : Lexer) = some (Token.INT [49], ⟨[97, 49], 2, 3, 0⟩) ∧
    isAsciiDigit 49 = true ∧ isAsciiAlphabetic 97 = true := by
  refine ⟨?_, ?_, by decide, by decide⟩ <;>
    simp [nextToken, tokenOf, skipWhitespace, scanWhile_eq, readChar, peekChar, Lexer.new,
      isAsciiWhitespace, isAsciiDigit, isAsciiAlphabetic, isIdentChar, lookupIdent,
      readIdent, readInt, slice]

/-- C2 amended: identifier payloads are maximal contiguous runs of the
letter-or-underscore class (a digit terminates an identifier run) and integer
payloads are maximal contiguous digit runs; each payload is nonempty, lies
wholly in its class, is never followed (pre-advance) by another character of
the same class, and is exactly the input segment ending at the returned
cursor position. -/
theorem C2_amended_maximal_munch (s : Lexer) (t : Token) (s' : Lexer) (h : wf s)
    (heq : nextToken s = some (t, s')) :
    (∀ w, t = Token.IDENT w → w ≠ [] ∧ w.all isIdentChar = true ∧
      isIdentChar s'.ch = false ∧ w = slice s'.input (s'.pos - w.length) s'.pos) ∧
    (∀ w, t = Token.INT w → w ≠ [] ∧ w.all isAsciiDigit = true ∧
      isAsciiDigit s'.ch = false ∧ w = slice s'.input (s'.pos - w.length) s'.pos) := by
  have hsw : skipWhitespace s = scanWhile isAsciiWhitespace rfl s := rfl
  obtain ⟨hi1, hw1, _, _, _, _, _⟩ := scanWhile_spec isAsciiWhitespace rfl s h
  rw [← hsw] at hi1 hw1
  unfold nextToken at heq
  rcases tokenOf_master _ _ _ heq with ⟨_, rfl, rfl⟩ | ⟨hdig, rfl, rfl⟩ | ⟨hid, rfl, rfl⟩ |
    ⟨hteq, rfl⟩ | ⟨hteq, rfl⟩
  · exact ⟨fun w hw => absurd hw (by simp), fun w hw => absurd hw (by simp)⟩
  · -- integer-run branch
    obtain ⟨hi2, hw2, hstop2, hmono2, hbd2, hprog2, hrun2⟩ :=
      scanWhile_spec isAsciiDigit rfl (skipWhitespace s) hw1
    have hchz : (skipWhitespace s).ch ≠ 0 := by
      have := (isAsciiDigit_iff _).1 hdig
      omega
    have hlt1 : (skipWhitespace s).pos < (skipWhitespace s).input.length :=
      wf_pos_lt _ hw1 hchz
    have hp2 : (skipWhitespace s).pos < (scanWhile isAsciiDigit rfl (skipWhitespace s)).pos :=
      hprog2 hdig
    have hb2 : (scanWhile isAsciiDigit rfl (skipWhitespace s)).pos ≤
        (skipWhitespace s).input.length := by
      have hmx : max (skipWhitespace s).pos (skipWhitespace s).input.length =
          (skipWhitespace s).input.length := Nat.max_eq_right (by omega)
      rw [hmx] at hbd2
      exact hbd2
    have hpay : (readInt (skipWhitespace s)).1 = slice (skipWhitespace s).input
        (skipWhitespace s).pos (scanWhile isAsciiDigit rfl (skipWhitespace s)).pos := rfl
    have hst2 : (readInt (skipWhitespace s)).2 = scanWhile isAsciiDigit rfl (skipWhitespace s) :=
      rfl
    have hlen : (readInt (skipWhitespace s)).1.length =
        (scanWhile isAsciiDigit rfl (skipWhitespace s)).pos - (skipWhitespace s).pos := by
      rw [hpay]
      exact slice_length _ _ _ (by omega) hb2
    refine ⟨fun w hw => absurd hw (by simp), fun w hw => ?_⟩
    have hw' : w = (readInt (skipWhitespace s)).1 := by
      injection hw.symm
    subst hw'
    refine ⟨?_, ?_, ?_, ?_⟩
    · intro hnil
      rw [hnil] at hlen
      simp at hlen
      omega
    · rw [hpay]
      exact slice_all _ _ _ _ hb2 hrun2
    · rw [hst2]
      exact hstop2
    · rw [hst2, hi2, hlen, hpay]
      have harg : (scanWhile isAsciiDigit rfl (skipWhitespace s)).pos -
          ((scanWhile isAsciiDigit rfl (skipWhitespace s)).pos - (skipWhitespace s).pos) =
          (skipWhitespace s).pos := by omega
      rw [harg]
  · -- identifier-run branch
    obtain ⟨hi2, hw2, hstop2, hmono2, hbd2, hprog2, hrun2⟩ :=
      scanWhile_spec isIdentChar rfl (skipWhitespace s) hw1
    have hchz : (skipWhitespace s).ch ≠ 0 := by
      have := (isIdentChar_iff _).1 hid
      omega
    have hlt1 : (skipWhitespace s).pos < (skipWhitespace s).input.length :=
      wf_pos_lt _ hw1 hchz
    have hp2 : (skipWhitespace s).pos < (scanWhile isIdentChar rfl (skipWhitespace s)).pos :=
      hprog2 hid
    have hb2 : (scanWhile isIdentChar rfl (skipWhitespace s)).pos ≤
        (skipWhitespace s).input.length := by
      have hmx : max (skipWhitespace s).pos (skipWhitespace s).input.length =
          (skipWhitespace s).input.length := Nat.max_eq_right (by omega)
      rw [hmx] at hbd2
      exact hbd2
    have hpay : (readIdent (skipWhitespace s)).1 = slice (skipWhitespace s).input
        (skipWhitespace s).pos (scanWhile isIdentChar rfl (skipWhitespace s)).pos := rfl
    have hst2 : (readIdent (skipWhitespace s)).2 =
        scanWhile isIdentChar rfl (skipWhitespace s) := rfl
    have hlen : (readIdent (skipWhitespace s)).1.length =
        (scanWhile isIdentChar rfl (skipWhitespace s)).pos - (skipWhitespace s).pos := by
      rw [hpay]
      exact slice_length _ _ _ (by omega) hb2
    refine ⟨fun w hw => ?_, fun w hw => absurd hw (lookupIdent_ne_int _ _)⟩
    have hw' : w = (readIdent (skipWhitespace s)).1 := lookupIdent_ident _ _ hw
    subst hw'
    refine ⟨?_, ?_, ?_, ?_⟩
    · intro hnil
      rw [hnil] at hlen
      simp at hlen
      omega
    · rw [hpay]
      exact slice_all _ _ _ _ hb2 hrun2
    · rw [hst2]
      exact hstop2
    · rw [hst2, hi2, hlen, hpay]
      have harg : (scanWhile isIdentChar rfl (skipWhitespace s)).pos -
          ((scanWhile isIdentChar rfl (skipWhitespace s)).pos - (skipWhitespace s).pos) =
          (skipWhitespace s).pos := by omega
      rw [harg]
  · rcases hteq with rfl | rfl <;>
      exact ⟨fun w hw => absurd hw (by simp), fun w hw => absurd hw (by simp)⟩
  · rcases hteq with rfl | rfl | rfl | rfl | rfl | rfl | rfl | rfl | rfl | rfl | rfl | rfl |
      rfl | rfl <;>
      exact ⟨fun w hw => absurd hw (by simp), fun w hw => absurd hw (by simp)⟩

/-- Witness for the amended C2: the identifier token of `"a1"`. -/
theorem C2_amended_maximal_munch_witness :
    [97] ≠ ([] : List Nat) ∧ ([97] : List Nat).all isIdentChar = true ∧
    isIdentChar (⟨[97, 49], 1, 2, 49⟩ : Lexer).ch = false ∧
    [97] = slice (⟨[97, 49], 1, 2, 49⟩ : Lexer).input
      ((⟨[97, 49], 1, 2, 49⟩ : Lexer).pos - ([97] : List Nat).length)
      (⟨[97, 49], 1, 2, 49⟩ : Lexer).pos :=
  (C2_amended_maximal_munch (Lexer.new [97, 49]) (Token.IDENT [97]) ⟨[97, 49], 1, 2, 49⟩
    (by decide)
    (by simp [nextToken, tokenOf, skipWhitespace, scanWhile_eq, readChar, peekChar, Lexer.new,
      isAsciiWhitespace, isAsciiDigit, isAsciiAlphabetic, isIdentChar, lookupIdent,
      readIdent, readInt, slice])).1 [97] rfl

/-- Witness for the amended C5 at the concrete input `" "`. -/
theorem C5_amended_no_premature_eof_witness :
    ([32] : List Nat).length ≤ (⟨[32], 2, 3, 0⟩ : Lexer).pos :=
  C5_amended_no_premature_eof (Lexer.new [32]) ⟨[32], 2, 3, 0⟩ (by decide) (by decide)
    (by simp [nextToken, tokenOf, skipWhitespace, scanWhile_eq, readChar, peekChar, Lexer.new,
      isAsciiWhitespace, isAsciiDigit, isAsciiAlphabetic, isIdentChar, lookupIdent,
      readIdent, readInt, slice])

